import Mathlib

/-!
Shallow embedding of the cycle-detection backend (`src/backend/main.py`).

The core of the repository is `check_is_dag(nodes, edges)`, a DFS with an
explicit recursion-stack set, plus the thin wrapper `parse_pipeline`.

Modelling choices:
* `Node` keeps only its `id` field; the remaining payload fields
  (`type`, `position`, `data`) are never read by `check_is_dag` or by any
  claim, so they are omitted from the record.
* Python exceptions are modelled with `Option`: `none` is a raised
  exception.  The adjacency build `graph[edge.source].append(edge.target)`
  raises `KeyError` when `edge.source` is not a key of `graph` (i.e. not a
  node id); `buildOk` decides exactly that condition.
* The recursive `has_cycle` mutates the closure sets `visited` and
  `rec_stack`; we thread an explicit `DfsState` instead.  The recursion is
  made structural with a fuel argument (`dfsRun`); `none` also stands for
  fuel exhaustion, and `dfsRun_isSome` below shows the fuel chosen in
  `check_is_dag` is never exhausted, so the model is total exactly where
  the Python function terminates normally.
-/

structure Node where
  id : String
deriving DecidableEq, Repr

structure Edge where
  id : String
  source : String
  target : String
  sourceHandle : Option String
  targetHandle : Option String
deriving DecidableEq, Repr

structure Pipeline where
  nodes : List Node
  edges : List Edge
deriving DecidableEq, Repr

structure ParseResult where
  num_nodes : Nat
  num_edges : Nat
  is_dag : Bool
deriving DecidableEq, Repr

/-- The list of node ids, in input order (`node.id for node in nodes`). -/
def nodeIds (nodes : List Node) : List String :=
  nodes.map Node.id

/-- Success of the adjacency build: the dict comprehension keyed by the
node ids, followed by `graph[edge.source].append(edge.target)` for each
edge, raises no `KeyError` iff every edge's source id is a node id. -/
def buildOk (nodes : List Node) (edges : List Edge) : Bool :=
  edges.all fun e => (nodeIds nodes).contains e.source

/-- Reading `graph.get(s, [])` from the adjacency dict after a successful
build: a node id maps to the targets of its out-edges in edge order, any
other string to `[]`. -/
def graphGet (nodes : List Node) (edges : List Edge) (s : String) : List String :=
  if (nodeIds nodes).contains s then
    (edges.filter fun e => e.source == s).map Edge.target
  else []

/-- The two mutable sets of `check_is_dag`: `visited` and `rec_stack`
(modelled as lists, used only through membership). -/
structure DfsState where
  visited : List String
  recStack : List String
deriving DecidableEq, Repr

/-- One call frame of the Python recursion: `Sum.inl n` is a call
`has_cycle(n)`, `Sum.inr ms` is the `for neighbor in ...` loop with the
remaining neighbours `ms`. -/
abbrev DfsArg := Sum String (List String)

/-- The recursive `has_cycle` of `check_is_dag`, with explicit state and
fuel.  `Sum.inl n`: add `n` to `visited` and `rec_stack`, loop over
`graph.get(n, [])`, and on normal exit remove `n` from `rec_stack`.
`Sum.inr` loop body: an unvisited neighbour is recursed into (propagating
`True`), a visited neighbour on `rec_stack` reports a cycle, any other
visited neighbour is skipped.  `none` models fuel exhaustion only. -/
def dfsRun (adj : String → List String) : Nat → DfsArg → DfsState → Option (Bool × DfsState)
  | 0, _, _ => none
  | Nat.succ f, Sum.inl n, st =>
    match dfsRun adj f (Sum.inr (adj n)) ⟨n :: st.visited, n :: st.recStack⟩ with
    | none => none
    | some (true, st2) => some (true, st2)
    | some (false, st2) => some (false, ⟨st2.visited, st2.recStack.erase n⟩)
  | Nat.succ _, Sum.inr [], st => some (false, st)
  | Nat.succ f, Sum.inr (m :: ms), st =>
    if m ∈ st.visited then
      if m ∈ st.recStack then some (true, st)
      else dfsRun adj f (Sum.inr ms) st
    else
      match dfsRun adj f (Sum.inl m) st with
      | none => none
      | some (true, st2) => some (true, st2)
      | some (false, st2) => dfsRun adj f (Sum.inr ms) st2

/-- The top-level loop of `check_is_dag`: for each node in input order,
if its id is unvisited run `has_cycle`; a detected cycle returns `False`
immediately, otherwise the loop ends with `True`. -/
def checkLoop (adj : String → List String) (fuel : Nat) : List Node → DfsState → Option Bool
  | [], _ => some true
  | node :: rest, st =>
    if node.id ∈ st.visited then checkLoop adj fuel rest st
    else
      match dfsRun adj fuel (Sum.inl node.id) st with
      | none => none
      | some (true, _) => some false
      | some (false, st2) => checkLoop adj fuel rest st2

/-- Fuel that `dfsRun_isSome` proves sufficient for every call made by
`check_is_dag`. -/
def dagFuel (nodes : List Node) (edges : List Edge) : Nat :=
  (edges.length + 2) * (nodes.length + edges.length) + 1

/-- The function `check_is_dag(nodes, edges)`: `none` models the
`KeyError` raised by the adjacency build when an edge's source id is not
a node id; otherwise the DFS runs from fresh empty `visited` /
`rec_stack` sets. -/
def check_is_dag (nodes : List Node) (edges : List Edge) : Option Bool :=
  if buildOk nodes edges then
    checkLoop (graphGet nodes edges) (dagFuel nodes edges) nodes ⟨[], []⟩
  else none

/-- The endpoint handler `parse_pipeline`: counts plus the
`check_is_dag` verdict; an exception in `check_is_dag` propagates. -/
def parse_pipeline (p : Pipeline) : Option ParseResult :=
  match check_is_dag p.nodes p.edges with
  | none => none
  | some b => some ⟨p.nodes.length, p.edges.length, b⟩

/-- Two sequential invocations of `check_is_dag` on the same input; each
starts from freshly created empty `visited` / `rec_stack` sets, exactly as
in the source where both sets are local to the call. -/
def runDetectorTwice (nodes : List Node) (edges : List Edge) :
    Option Bool × Option Bool :=
  (check_is_dag nodes edges, check_is_dag nodes edges)

/-- The edge relation induced by the edge list: `EdgeRel edges a b` iff
some supplied edge goes from `a` to `b`. -/
def EdgeRel (edges : List Edge) (a b : String) : Prop :=
  ∃ e ∈ edges, e.source = a ∧ e.target = b

/-- The induced directed graph contains a cycle: some node reaches itself
by a nonempty edge path. -/
def HasCycle (edges : List Edge) : Prop :=
  ∃ v, Relation.TransGen (EdgeRel edges) v v

/-- Concrete node builder used in example inputs. -/
def mkN (s : String) : Node := ⟨s⟩

/-- Concrete edge builder used in example inputs (no handle labels). -/
def mkE (i s t : String) : Edge := ⟨i, s, t, none, none⟩

/-- A node is finished ("black"): visited and no longer on the recursion
stack. -/
def isBlack (st : DfsState) (x : String) : Prop :=
  x ∈ st.visited ∧ x ∉ st.recStack

/-- Invariant of the DFS state with respect to an edge relation `E`: the
recursion stack is contained in `visited`, consecutive stack entries are
linked by edges (deepest entry first), and finished nodes are closed under
`E` and lie on no cycle. -/
structure WfSt (E : String → String → Prop) (st : DfsState) : Prop where
  sub : ∀ x ∈ st.recStack, x ∈ st.visited
  chain : List.Chain' (fun a b => E b a) st.recStack
  blackClosed : ∀ x, isBlack st x → ∀ m, E x m → isBlack st m
  blackAcyclic : ∀ x, isBlack st x → ¬ Relation.TransGen E x x

/-- Precondition of a `dfsRun` call: a node call targets an unvisited node
linked from the stack top; a loop continuation holds the remaining
neighbours of the stack top. -/
def PreA (E : String → String → Prop) : DfsArg → DfsState → Prop
  | Sum.inl n, st => n ∉ st.visited ∧ ∀ t, st.recStack.head? = some t → E t n
  | Sum.inr lst, st => ∃ h, st.recStack.head? = some h ∧ ∀ m ∈ lst, E h m

/-- What a `false` return guarantees about the processed argument. -/
def PostA : DfsArg → DfsState → Prop
  | Sum.inl n, st' => isBlack st' n
  | Sum.inr lst, st' => ∀ m ∈ lst, isBlack st' m

/-- Number of ids in the universe `U` not yet visited. -/
def cardRem (U : Finset String) (st : DfsState) : Nat :=
  (U.filter fun x => x ∉ st.visited).card

/-- The universe of ids a run of `check_is_dag` can ever touch: the node
ids and the edge targets. -/
def idUniverse (nodes : List Node) (edges : List Edge) : Finset String :=
  (nodeIds nodes ++ edges.map Edge.target).toFinset

/-! ### Basic facts about the DFS runner -/

lemma dfsRun_mono (adj : String → List String) :
    ∀ fuel (arg : DfsArg) st res st',
      dfsRun adj fuel arg st = some (res, st') → ∀ x ∈ st.visited, x ∈ st'.visited := by
  intro fuel
  induction fuel with
  | zero => intro arg st res st' h; simp [dfsRun] at h
  | succ f ih =>
    intro arg st res st' h x hx
    match arg with
    | Sum.inl n =>
      simp only [dfsRun] at h
      split at h
      · exact absurd h (by simp)
      · next st2 heq =>
        cases h
        exact ih _ _ _ _ heq x (by simp [hx])
      · next st2 heq =>
        cases h
        exact ih _ _ _ _ heq x (by simp [hx])
    | Sum.inr [] =>
      simp only [dfsRun] at h
      cases h
      exact hx
    | Sum.inr (m :: ms) =>
      simp only [dfsRun] at h
      split at h
      · split at h
        · cases h
          exact hx
        · exact ih _ _ _ _ h x hx
      · split at h
        · exact absurd h (by simp)
        · next st2 heq =>
          cases h
          exact ih _ _ _ _ heq x hx
        · next st2 heq =>
          exact ih _ _ _ _ h x (ih _ _ _ _ heq x hx)

lemma dfsRun_inl_mem (adj : String → List String) (fuel : Nat) (n : String)
    (st : DfsState) (res : Bool) (st' : DfsState)
    (h : dfsRun adj fuel (Sum.inl n) st = some (res, st')) : n ∈ st'.visited := by
  match fuel with
  | 0 => simp [dfsRun] at h
  | Nat.succ f =>
    simp only [dfsRun] at h
    split at h
    · exact absurd h (by simp)
    · next st2 heq =>
      cases h
      exact dfsRun_mono adj _ _ _ _ _ heq n (by simp)
    · next st2 heq =>
      cases h
      exact dfsRun_mono adj _ _ _ _ _ heq n (by simp)

lemma dfsRun_recStack_sub (adj : String → List String) :
    ∀ fuel (arg : DfsArg) st res st',
      dfsRun adj fuel arg st = some (res, st') →
      (∀ x ∈ st.recStack, x ∈ st.visited) →
      ∀ x ∈ st'.recStack, x ∈ st'.visited := by
  intro fuel
  induction fuel with
  | zero => intro arg st res st' h; simp [dfsRun] at h
  | succ f ih =>
    intro arg st res st' h hsub
    match arg with
    | Sum.inl n =>
      simp only [dfsRun] at h
      have hsub1 : ∀ x ∈ (n :: st.recStack), x ∈ (n :: st.visited) := by
        intro x hx
        rcases List.mem_cons.mp hx with rfl | hx
        · exact List.mem_cons_self _ _
        · exact List.mem_cons_of_mem _ (hsub x hx)
      split at h
      · exact absurd h (by simp)
      · next st2 heq =>
        cases h
        exact ih _ _ _ _ heq hsub1
      · next st2 heq =>
        cases h
        intro x hx
        exact ih _ _ _ _ heq hsub1 x (List.mem_of_mem_erase hx)
    | Sum.inr [] =>
      simp only [dfsRun] at h
      cases h
      exact hsub
    | Sum.inr (m :: ms) =>
      simp only [dfsRun] at h
      split at h
      · split at h
        · cases h
          exact hsub
        · exact ih _ _ _ _ h hsub
      · split at h
        · exact absurd h (by simp)
        · next st2 heq =>
          cases h
          exact ih _ _ _ _ heq hsub
        · next st2 heq =>
          exact ih _ _ _ _ h (ih _ _ _ _ heq hsub)

/-! ### The DFS invariant -/

lemma chain_head_reach (E : String → String → Prop) :
    ∀ (l : List String) (h m : String), List.Chain' (fun a b => E b a) l →
      l.head? = some h → m ∈ l → Relation.ReflTransGen E m h := by
  intro l
  induction l with
  | nil => intro h m _ hh; simp at hh
  | cons a t ih =>
    intro h m hch hh hm
    have ha : a = h := by simpa using hh
    subst ha
    rcases List.mem_cons.mp hm with rfl | hm
    · exact Relation.ReflTransGen.refl
    · match t, hm with
      | b :: t', hm =>
        have hstep : E b a := (List.chain'_cons.mp hch).1
        have hmb : Relation.ReflTransGen E m b :=
          ih b m (List.chain'_cons.mp hch).2 rfl hm
        exact hmb.tail hstep

lemma closed_reach (E : String → String → Prop) (P : String → Prop)
    (hP : ∀ x, P x → ∀ m, E x m → P m) :
    ∀ x y, Relation.ReflTransGen E x y → P x → P y := by
  intro x y hxy hx
  induction hxy with
  | refl => exact hx
  | tail _ hstep ih => exact hP _ ih _ hstep

lemma dfsRun_post (adj : String → List String) (E : String → String → Prop)
    (hadjE : ∀ s m, m ∈ adj s → E s m) (hadjC : ∀ s m, E s m → m ∈ adj s) :
    ∀ fuel (arg : DfsArg) st res st',
      dfsRun adj fuel arg st = some (res, st') → WfSt E st → PreA E arg st →
      (res = true → ∃ v, Relation.TransGen E v v) ∧
      (res = false → st'.recStack = st.recStack ∧ WfSt E st' ∧ PostA arg st') := by
  intro fuel
  induction fuel with
  | zero => intro arg st res st' h; simp [dfsRun] at h
  | succ f ih =>
    intro arg st res st' h hw hpre
    match arg with
    | Sum.inl n =>
      obtain ⟨hnv, hlink⟩ := hpre
      simp only [dfsRun] at h
      have hw1 : WfSt E ⟨n :: st.visited, n :: st.recStack⟩ := by
        refine ⟨?_, ?_, ?_, ?_⟩
        · intro x hx
          rcases List.mem_cons.mp hx with rfl | hx
          · exact List.mem_cons_self _ _
          · exact List.mem_cons_of_mem _ (hw.sub x hx)
        · refine List.chain'_cons'.mpr ⟨?_, hw.chain⟩
          intro y hy
          exact hlink y (Option.mem_def.mp hy)
        · intro x hx m hm
          have hxn : x ≠ n := fun hxe => hx.2 (hxe ▸ List.mem_cons_self _ _)
          have hxb : isBlack st x := by
            refine ⟨?_, fun hr => hx.2 (List.mem_cons_of_mem _ hr)⟩
            rcases List.mem_cons.mp hx.1 with rfl | hv
            · exact absurd rfl hxn
            · exact hv
          have hmb := hw.blackClosed x hxb m hm
          refine ⟨List.mem_cons_of_mem _ hmb.1, ?_⟩
          intro hmr
          rcases List.mem_cons.mp hmr with rfl | hmr
          · exact hnv hmb.1
          · exact hmb.2 hmr
        · intro x hx
          have hxn : x ≠ n := fun hxe => hx.2 (hxe ▸ List.mem_cons_self _ _)
          have hxb : isBlack st x := by
            refine ⟨?_, fun hr => hx.2 (List.mem_cons_of_mem _ hr)⟩
            rcases List.mem_cons.mp hx.1 with rfl | hv
            · exact absurd rfl hxn
            · exact hv
          exact hw.blackAcyclic x hxb
      have hpre1 : PreA E (Sum.inr (adj n)) ⟨n :: st.visited, n :: st.recStack⟩ := by
        exact ⟨n, rfl, fun m hm => hadjE n m hm⟩
      split at h
      · exact absurd h (by simp)
      · next st2 heq =>
        cases h
        refine ⟨fun _ => (ih _ _ _ _ heq hw1 hpre1).1 rfl, fun hc => Bool.noConfusion hc⟩
      · next st2 heq =>
        cases h
        obtain ⟨hrs2, hw2, hpost2⟩ := (ih _ _ _ _ heq hw1 hpre1).2 rfl
        have hrs2' : st2.recStack = n :: st.recStack := hrs2
        have hmono2 : ∀ x ∈ (n :: st.visited), x ∈ st2.visited :=
          dfsRun_mono adj _ _ _ _ _ heq
        have hrs' : (⟨st2.visited, st2.recStack.erase n⟩ : DfsState).recStack = st.recStack := by
          show st2.recStack.erase n = st.recStack
          rw [hrs2', List.erase_cons_head]
        refine ⟨fun hc => Bool.noConfusion hc, fun _ => ⟨hrs', ?_, ?_⟩⟩
        · refine ⟨?_, ?_, ?_, ?_⟩
          · intro x hx
            rw [hrs'] at hx
            exact hmono2 x (List.mem_cons_of_mem _ (hw.sub x hx))
          · show List.Chain' _ (st2.recStack.erase n)
            rw [hrs2', List.erase_cons_head]
            exact hw.chain
          · intro x hx m hm
            have hx2 : x ∈ st2.visited := hx.1
            have hxr : x ∉ st.recStack := by
              have := hx.2
              rwa [hrs'] at this
            by_cases hxn : x = n
            · rw [hxn] at hm
              have hmb : isBlack st2 m := hpost2 m (hadjC n m hm)
              refine ⟨hmb.1, fun hmr => hmb.2 (List.mem_of_mem_erase hmr)⟩
            · have hxb2 : isBlack st2 x := by
                refine ⟨hx2, ?_⟩
                rw [hrs2']
                intro hxr2
                rcases List.mem_cons.mp hxr2 with rfl | hxr2
                · exact hxn rfl
                · exact hxr hxr2
              have hmb := hw2.blackClosed x hxb2 m hm
              exact ⟨hmb.1, fun hmr => hmb.2 (List.mem_of_mem_erase hmr)⟩
          · intro x hx
            have hxr : x ∉ st.recStack := by
              have := hx.2
              rwa [hrs'] at this
            by_cases hxn : x = n
            · rw [hxn]
              intro hcyc
              obtain ⟨m, hnm, hmn⟩ := Relation.TransGen.head'_iff.mp hcyc
              have hmb : isBlack st2 m := hpost2 m (hadjC n m hnm)
              have hnb : isBlack st2 n :=
                closed_reach E (isBlack st2) hw2.blackClosed m n hmn hmb
              apply hnb.2
              rw [hrs2']
              exact List.mem_cons_self _ _
            · have hxb2 : isBlack st2 x := by
                refine ⟨hx.1, ?_⟩
                rw [hrs2']
                intro hxr2
                rcases List.mem_cons.mp hxr2 with rfl | hxr2
                · exact hxn rfl
                · exact hxr hxr2
              exact hw2.blackAcyclic x hxb2
        · show isBlack _ n
          refine ⟨hmono2 n (List.mem_cons_self _ _), ?_⟩
          intro hnr
          rw [hrs'] at hnr
          exact hnv (hw.sub n hnr)
    | Sum.inr [] =>
      simp only [dfsRun] at h
      cases h
      refine ⟨fun hc => Bool.noConfusion hc, fun _ => ⟨rfl, hw, ?_⟩⟩
      intro m hm
      exact absurd hm (List.not_mem_nil m)
    | Sum.inr (m :: ms) =>
      obtain ⟨hh, hhd, hall⟩ := hpre
      simp only [dfsRun] at h
      split at h
      · next hv =>
        split at h
        · next hr =>
          cases h
          refine ⟨fun _ => ⟨m, ?_⟩, fun hc => Bool.noConfusion hc⟩
          have hreach : Relation.ReflTransGen E m hh :=
            chain_head_reach E st.recStack hh m hw.chain hhd hr
          exact Relation.TransGen.tail' hreach (hall m (List.mem_cons_self _ _))
        · next hr =>
          have hpre2 : PreA E (Sum.inr ms) st :=
            ⟨hh, hhd, fun x hx => hall x (List.mem_cons_of_mem _ hx)⟩
          obtain ⟨c1, c2⟩ := ih _ _ _ _ h hw hpre2
          refine ⟨c1, fun hf => ?_⟩
          obtain ⟨hrs', hw', hpost'⟩ := c2 hf
          refine ⟨hrs', hw', ?_⟩
          intro x hx
          rcases List.mem_cons.mp hx with rfl | hx
          · refine ⟨dfsRun_mono adj _ _ _ _ _ h x hv, ?_⟩
            rw [hrs']
            exact hr
          · exact hpost' x hx
      · next hnv =>
        split at h
        · exact absurd h (by simp)
        · next st2 heq =>
          cases h
          have hpre2 : PreA E (Sum.inl m) st := by
            refine ⟨hnv, fun t ht => ?_⟩
            have : t = hh := by
              rw [ht] at hhd
              exact Option.some.inj hhd
            subst this
            exact hall m (List.mem_cons_self _ _)
          refine ⟨fun _ => (ih _ _ _ _ heq hw hpre2).1 rfl, fun hc => Bool.noConfusion hc⟩
        · next st2 heq =>
          have hpre2 : PreA E (Sum.inl m) st := by
            refine ⟨hnv, fun t ht => ?_⟩
            have : t = hh := by
              rw [ht] at hhd
              exact Option.some.inj hhd
            subst this
            exact hall m (List.mem_cons_self _ _)
          obtain ⟨hrs2, hw2, hblackm⟩ := (ih _ _ _ _ heq hw hpre2).2 rfl
          have hpre3 : PreA E (Sum.inr ms) st2 := by
            refine ⟨hh, ?_, fun x hx => hall x (List.mem_cons_of_mem _ hx)⟩
            rw [hrs2]
            exact hhd
          obtain ⟨c1, c2⟩ := ih _ _ _ _ h hw2 hpre3
          refine ⟨c1, fun hf => ?_⟩
          obtain ⟨hrs', hw', hpost'⟩ := c2 hf
          refine ⟨by rw [hrs', hrs2], hw', ?_⟩
          intro x hx
          rcases List.mem_cons.mp hx with rfl | hx
          · have hxb : isBlack st2 x := hblackm
            refine ⟨dfsRun_mono adj _ _ _ _ _ h x hxb.1, ?_⟩
            rw [hrs']
            exact hxb.2
          · exact hpost' x hx

lemma checkLoop_post (adj : String → List String) (E : String → String → Prop)
    (hadjE : ∀ s m, m ∈ adj s → E s m) (hadjC : ∀ s m, E s m → m ∈ adj s) :
    ∀ (ns : List Node) (fuel : Nat) (st : DfsState) (res : Bool),
      checkLoop adj fuel ns st = some res → WfSt E st → st.recStack = [] →
      (res = false → ∃ v, Relation.TransGen E v v) ∧
      (res = true → ∃ st', WfSt E st' ∧ st'.recStack = [] ∧
        (∀ x ∈ st.visited, x ∈ st'.visited) ∧ ∀ node ∈ ns, node.id ∈ st'.visited) := by
  intro ns
  induction ns with
  | nil =>
    intro fuel st res h hw hemp
    simp only [checkLoop] at h
    cases h
    refine ⟨fun hc => Bool.noConfusion hc, fun _ => ⟨st, hw, hemp, fun x hx => hx, ?_⟩⟩
    intro node hn
    exact absurd hn (List.not_mem_nil _)
  | cons node rest ih =>
    intro fuel st res h hw hemp
    simp only [checkLoop] at h
    split at h
    · next hv =>
      obtain ⟨c1, c2⟩ := ih fuel st res h hw hemp
      refine ⟨c1, fun ht => ?_⟩
      obtain ⟨st', hw', hemp', hmono', hall'⟩ := c2 ht
      refine ⟨st', hw', hemp', hmono', ?_⟩
      intro nd hn
      rcases List.mem_cons.mp hn with rfl | hn
      · exact hmono' nd.id hv
      · exact hall' nd hn
    · next hnv =>
      have hpre : PreA E (Sum.inl node.id) st := by
        refine ⟨hnv, fun t ht => ?_⟩
        rw [hemp] at ht
        exact absurd ht (by simp)
      split at h
      · exact absurd h (by simp)
      · next st2 heq =>
        cases h
        exact ⟨fun _ => (dfsRun_post adj E hadjE hadjC _ _ _ _ _ heq hw hpre).1 rfl,
          fun hc => Bool.noConfusion hc⟩
      · next st2 heq =>
        obtain ⟨hrs2, hw2, _⟩ := (dfsRun_post adj E hadjE hadjC _ _ _ _ _ heq hw hpre).2 rfl
        have hemp2 : st2.recStack = [] := by rw [hrs2, hemp]
        obtain ⟨c1, c2⟩ := ih fuel st2 res h hw2 hemp2
        refine ⟨c1, fun ht => ?_⟩
        obtain ⟨st', hw', hemp', hmono', hall'⟩ := c2 ht
        refine ⟨st', hw', hemp', ?_, ?_⟩
        · intro x hx
          exact hmono' x (dfsRun_mono adj _ _ _ _ _ heq x hx)
        · intro nd hn
          rcases List.mem_cons.mp hn with rfl | hn
          · exact hmono' nd.id (dfsRun_inl_mem adj _ _ _ _ _ heq)
          · exact hall' nd hn

/-! ### Bridging the adjacency model and the edge relation -/

lemma buildOk_iff (nodes : List Node) (edges : List Edge) :
    buildOk nodes edges = true ↔ ∀ e ∈ edges, e.source ∈ nodeIds nodes := by
  simp [buildOk]

lemma graphGet_rel (nodes : List Node) (edges : List Edge) :
    ∀ s m, m ∈ graphGet nodes edges s → EdgeRel edges s m := by
  intro s m hm
  unfold graphGet at hm
  split at hm
  · obtain ⟨e, he, hte⟩ := List.mem_map.mp hm
    obtain ⟨he', hse⟩ := List.mem_filter.mp he
    exact ⟨e, he', by simpa using hse, hte⟩
  · exact absurd hm (List.not_mem_nil m)

lemma rel_graphGet (nodes : List Node) (edges : List Edge)
    (hsrc : ∀ e ∈ edges, e.source ∈ nodeIds nodes) :
    ∀ s m, EdgeRel edges s m → m ∈ graphGet nodes edges s := by
  intro s m hrel
  obtain ⟨e, he, hs, ht⟩ := hrel
  unfold graphGet
  split
  · exact List.mem_map.mpr ⟨e, List.mem_filter.mpr ⟨he, by simp [hs]⟩, ht⟩
  · next hc =>
    refine absurd ?_ hc
    rw [← hs]
    exact List.elem_iff.mpr (hsrc e he)

/-! ### Fuel sufficiency -/

lemma cardRem_mono (U : Finset String) (st st' : DfsState)
    (h : ∀ x ∈ st.visited, x ∈ st'.visited) : cardRem U st' ≤ cardRem U st := by
  apply Finset.card_le_card
  intro x hx
  rw [Finset.mem_filter] at hx ⊢
  exact ⟨hx.1, fun hv => hx.2 (h x hv)⟩

lemma cardRem_lt_of_mem (U : Finset String) (st st' : DfsState) (n : String)
    (hnU : n ∈ U) (hnv : n ∉ st.visited) (hn' : n ∈ st'.visited)
    (hmono : ∀ x ∈ st.visited, x ∈ st'.visited) :
    cardRem U st' < cardRem U st := by
  apply Finset.card_lt_card
  rw [Finset.ssubset_iff_of_subset]
  · refine ⟨n, ?_, ?_⟩
    · exact Finset.mem_filter.mpr ⟨hnU, hnv⟩
    · intro hmem
      exact (Finset.mem_filter.mp hmem).2 hn'
  · intro x hx
    rw [Finset.mem_filter] at hx ⊢
    exact ⟨hx.1, fun hv => hx.2 (hmono x hv)⟩

lemma dfsRun_isSome (adj : String → List String) (U : Finset String) (A : Nat)
    (hadjU : ∀ s, ∀ m ∈ adj s, m ∈ U) (hadjA : ∀ s, (adj s).length ≤ A) :
    ∀ fuel (arg : DfsArg) (st : DfsState),
      (match arg with
        | Sum.inl n => n ∈ U ∧ n ∉ st.visited ∧ (A + 2) * cardRem U st < fuel
        | Sum.inr lst => (∀ m ∈ lst, m ∈ U) ∧
            (A + 2) * cardRem U st + lst.length < fuel) →
      (dfsRun adj fuel arg st).isSome = true := by
  intro fuel
  induction fuel with
  | zero =>
    intro arg st hpre
    match arg with
    | Sum.inl n => exact absurd hpre.2.2 (by omega)
    | Sum.inr lst => exact absurd hpre.2 (by omega)
  | succ f ih =>
    intro arg st hpre
    match arg with
    | Sum.inl n =>
      obtain ⟨hnU, hnv, hfuel⟩ := hpre
      have hlt : cardRem U ⟨n :: st.visited, n :: st.recStack⟩ < cardRem U st :=
        cardRem_lt_of_mem U st _ n hnU hnv (List.mem_cons_self _ _)
          (fun x hx => List.mem_cons_of_mem _ hx)
      have hpre1 : (∀ m ∈ adj n, m ∈ U) ∧
          (A + 2) * cardRem U ⟨n :: st.visited, n :: st.recStack⟩ + (adj n).length < f := by
        refine ⟨hadjU n, ?_⟩
        have h1 : (A + 2) * (cardRem U ⟨n :: st.visited, n :: st.recStack⟩ + 1)
            ≤ (A + 2) * cardRem U st := Nat.mul_le_mul_left _ hlt
        have h2 : (adj n).length ≤ A := hadjA n
        have h3 : (A + 2) * (cardRem U ⟨n :: st.visited, n :: st.recStack⟩ + 1)
            = (A + 2) * cardRem U ⟨n :: st.visited, n :: st.recStack⟩ + (A + 2) := by ring
        omega
      have hs := ih (Sum.inr (adj n)) ⟨n :: st.visited, n :: st.recStack⟩ hpre1
      rw [Option.isSome_iff_exists] at hs
      obtain ⟨⟨b, st2⟩, hp⟩ := hs
      simp only [dfsRun]
      rw [hp]
      cases b <;> simp
    | Sum.inr [] =>
      simp [dfsRun]
    | Sum.inr (m :: ms) =>
      obtain ⟨hU, hfuel⟩ := hpre
      rw [List.length_cons] at hfuel
      simp only [dfsRun]
      split
      · next hv =>
        split
        · simp
        · exact ih (Sum.inr ms) st
            ⟨fun x hx => hU x (List.mem_cons_of_mem _ hx), by omega⟩
      · next hnv =>
        have hmU : m ∈ U := hU m (List.mem_cons_self _ _)
        have hs := ih (Sum.inl m) st ⟨hmU, hnv, by omega⟩
        rw [Option.isSome_iff_exists] at hs
        obtain ⟨⟨b, st2⟩, hp⟩ := hs
        rw [hp]
        cases b
        · show (dfsRun adj f (Sum.inr ms) st2).isSome = true
          have hlt : cardRem U st2 < cardRem U st :=
            cardRem_lt_of_mem U st st2 m hmU hnv
              (dfsRun_inl_mem adj f m st false st2 hp)
              (dfsRun_mono adj f _ st false st2 hp)
          refine ih (Sum.inr ms) st2
            ⟨fun x hx => hU x (List.mem_cons_of_mem _ hx), ?_⟩
          have h1 : (A + 2) * (cardRem U st2 + 1) ≤ (A + 2) * cardRem U st :=
            Nat.mul_le_mul_left _ hlt
          have h3 : (A + 2) * (cardRem U st2 + 1)
              = (A + 2) * cardRem U st2 + (A + 2) := by ring
          omega
        · simp

lemma checkLoop_isSome (adj : String → List String) (U : Finset String) (A : Nat)
    (hadjU : ∀ s, ∀ m ∈ adj s, m ∈ U) (hadjA : ∀ s, (adj s).length ≤ A) :
    ∀ (ns : List Node) (fuel : Nat) (st : DfsState),
      (∀ node ∈ ns, node.id ∈ U) → (A + 2) * cardRem U st < fuel →
      (checkLoop adj fuel ns st).isSome = true := by
  intro ns
  induction ns with
  | nil => intro fuel st _ _; simp [checkLoop]
  | cons node rest ih =>
    intro fuel st hU hfuel
    simp only [checkLoop]
    split
    · exact ih fuel st (fun nd hn => hU nd (List.mem_cons_of_mem _ hn)) hfuel
    · next hnv =>
      have hs := dfsRun_isSome adj U A hadjU hadjA fuel (Sum.inl node.id) st
        ⟨hU node (List.mem_cons_self _ _), hnv, hfuel⟩
      rw [Option.isSome_iff_exists] at hs
      obtain ⟨⟨b, st2⟩, hp⟩ := hs
      rw [hp]
      cases b
      · show (checkLoop adj fuel rest st2).isSome = true
        refine ih fuel st2 (fun nd hn => hU nd (List.mem_cons_of_mem _ hn)) ?_
        have hle : cardRem U st2 ≤ cardRem U st :=
          cardRem_mono U st st2 (dfsRun_mono adj fuel _ st false st2 hp)
        exact Nat.lt_of_le_of_lt (Nat.mul_le_mul_left _ hle) hfuel
      · simp

lemma graphGet_mem_universe (nodes : List Node) (edges : List Edge) :
    ∀ s, ∀ m ∈ graphGet nodes edges s, m ∈ idUniverse nodes edges := by
  intro s m hm
  unfold graphGet at hm
  split at hm
  · obtain ⟨e, he, hte⟩ := List.mem_map.mp hm
    have : m ∈ edges.map Edge.target :=
      List.mem_map.mpr ⟨e, (List.mem_filter.mp he).1, hte⟩
    exact List.mem_toFinset.mpr (List.mem_append_right _ this)
  · exact absurd hm (List.not_mem_nil m)

lemma graphGet_length_le (nodes : List Node) (edges : List Edge) :
    ∀ s, (graphGet nodes edges s).length ≤ edges.length := by
  intro s
  unfold graphGet
  split
  · rw [List.length_map]
    exact List.length_filter_le _ _
  · simp

lemma check_is_dag_eq_checkLoop (nodes : List Node) (edges : List Edge)
    (hsrc : ∀ e ∈ edges, e.source ∈ nodeIds nodes) :
    check_is_dag nodes edges
      = checkLoop (graphGet nodes edges) (dagFuel nodes edges) nodes ⟨[], []⟩ := by
  have hb : buildOk nodes edges = true := (buildOk_iff nodes edges).mpr hsrc
  simp [check_is_dag, hb]

lemma check_is_dag_isSome (nodes : List Node) (edges : List Edge)
    (hsrc : ∀ e ∈ edges, e.source ∈ nodeIds nodes) :
    (check_is_dag nodes edges).isSome = true := by
  rw [check_is_dag_eq_checkLoop nodes edges hsrc]
  apply checkLoop_isSome (graphGet nodes edges) (idUniverse nodes edges) edges.length
    (graphGet_mem_universe nodes edges) (graphGet_length_le nodes edges)
  · intro node hn
    refine List.mem_toFinset.mpr (List.mem_append_left _ ?_)
    exact List.mem_map.mpr ⟨node, hn, rfl⟩
  · have hcard : cardRem (idUniverse nodes edges) ⟨[], []⟩
        ≤ nodes.length + edges.length := by
      have h1 : cardRem (idUniverse nodes edges) ⟨[], []⟩
          ≤ (idUniverse nodes edges).card := Finset.card_filter_le _ _
      have h2 : (idUniverse nodes edges).card
          ≤ (nodeIds nodes ++ edges.map Edge.target).length :=
        List.toFinset_card_le _
      rw [List.length_append, List.length_map] at h2
      unfold nodeIds at h2
      rw [List.length_map] at h2
      omega
    have h3 : (edges.length + 2) * cardRem (idUniverse nodes edges) ⟨[], []⟩
        ≤ (edges.length + 2) * (nodes.length + edges.length) :=
      Nat.mul_le_mul_left _ hcard
    unfold dagFuel
    omega

/-- Master characterisation: when every edge source is a node id,
`check_is_dag` returns a boolean, and that boolean is `true` exactly when
the induced graph has no cycle. -/
theorem check_is_dag_characterization (nodes : List Node) (edges : List Edge)
    (hsrc : ∀ e ∈ edges, e.source ∈ nodeIds nodes) :
    ∃ b, check_is_dag nodes edges = some b ∧ (b = true ↔ ¬ HasCycle edges) := by
  have hs := check_is_dag_isSome nodes edges hsrc
  rw [Option.isSome_iff_exists] at hs
  obtain ⟨b, hb⟩ := hs
  refine ⟨b, hb, ?_⟩
  have hrun : checkLoop (graphGet nodes edges) (dagFuel nodes edges) nodes ⟨[], []⟩
      = some b := by
    rw [← check_is_dag_eq_checkLoop nodes edges hsrc]
    exact hb
  have hwinit : WfSt (EdgeRel edges) ⟨[], []⟩ := by
    refine ⟨?_, ?_, ?_, ?_⟩
    · intro x hx
      exact absurd hx (List.not_mem_nil x)
    · simp
    · intro x hx
      exact absurd hx.1 (List.not_mem_nil x)
    · intro x hx
      exact absurd hx.1 (List.not_mem_nil x)
  obtain ⟨c1, c2⟩ := checkLoop_post (graphGet nodes edges) (EdgeRel edges)
    (graphGet_rel nodes edges) (rel_graphGet nodes edges hsrc) nodes _ _ b hrun hwinit rfl
  constructor
  · intro hbt hcyc
    obtain ⟨v, hv⟩ := hcyc
    obtain ⟨st', hw', hemp', _, hall'⟩ := c2 hbt
    obtain ⟨m, hvm, _⟩ := Relation.TransGen.head'_iff.mp hv
    obtain ⟨e, he, hes, _⟩ := hvm
    have hvid : v ∈ nodeIds nodes := hes ▸ hsrc e he
    obtain ⟨node, hn, hid⟩ := List.mem_map.mp hvid
    have hvv : v ∈ st'.visited := hid ▸ hall' node hn
    have hvb : isBlack st' v := by
      refine ⟨hvv, ?_⟩
      rw [hemp']
      exact List.not_mem_nil v
    exact hw'.blackAcyclic v hvb hv
  · intro hnc
    cases b
    · exact absurd (c1 rfl) hnc
    · rfl

/-! ### Permutation invariance -/

lemma EdgeRel_perm (edges edges' : List Edge) (hp : edges.Perm edges') :
    ∀ a b, EdgeRel edges a b ↔ EdgeRel edges' a b := by
  intro a b
  unfold EdgeRel
  constructor
  · rintro ⟨e, he, hprop⟩
    exact ⟨e, hp.mem_iff.mp he, hprop⟩
  · rintro ⟨e, he, hprop⟩
    exact ⟨e, hp.mem_iff.mpr he, hprop⟩

lemma HasCycle_perm (edges edges' : List Edge) (hp : edges.Perm edges') :
    HasCycle edges ↔ HasCycle edges' := by
  unfold HasCycle
  constructor
  · rintro ⟨v, hv⟩
    exact ⟨v, hv.mono fun a b hab => (EdgeRel_perm edges edges' hp a b).mp hab⟩
  · rintro ⟨v, hv⟩
    exact ⟨v, hv.mono fun a b hab => (EdgeRel_perm edges edges' hp a b).mpr hab⟩

lemma buildOk_perm (nodes nodes' : List Node) (edges edges' : List Edge)
    (hn : nodes.Perm nodes') (he : edges.Perm edges') :
    buildOk nodes edges = buildOk nodes' edges' := by
  have hiff : buildOk nodes edges = true ↔ buildOk nodes' edges' = true := by
    rw [buildOk_iff, buildOk_iff]
    constructor
    · intro h e hme
      exact ((hn.map Node.id).mem_iff).mp (h e (he.mem_iff.mpr hme))
    · intro h e hme
      exact ((hn.map Node.id).mem_iff).mpr (h e (he.mem_iff.mp hme))
  cases h1 : buildOk nodes edges <;> cases h2 : buildOk nodes' edges' <;> simp_all

lemma check_is_dag_perm (nodes nodes' : List Node) (edges edges' : List Edge)
    (hn : nodes.Perm nodes') (he : edges.Perm edges') :
    check_is_dag nodes edges = check_is_dag nodes' edges' := by
  cases hb : buildOk nodes edges
  · have hb' : buildOk nodes' edges' = false := by
      rw [← buildOk_perm nodes nodes' edges edges' hn he]
      exact hb
    unfold check_is_dag
    rw [hb, hb']
    rfl
  · have hb' : buildOk nodes' edges' = true := by
      rw [← buildOk_perm nodes nodes' edges edges' hn he]
      exact hb
    have hsrc : ∀ e ∈ edges, e.source ∈ nodeIds nodes := (buildOk_iff _ _).mp hb
    have hsrc' : ∀ e ∈ edges', e.source ∈ nodeIds nodes' := (buildOk_iff _ _).mp hb'
    obtain ⟨b, hbeq, hiff⟩ := check_is_dag_characterization nodes edges hsrc
    obtain ⟨b', hbeq', hiff'⟩ := check_is_dag_characterization nodes' edges' hsrc'
    have hcyc := HasCycle_perm edges edges' he
    have hbb : b = b' := by
      cases b <;> cases b' <;> simp_all
    rw [hbeq, hbeq', hbb]

/-! ### The claims -/

/-- C1: for nodes with unique ids and edges whose source and target ids
are all among the node ids, `check_is_dag` returns `true` when the
induced directed graph has no cycle, and `false` when it has at least one
cycle. -/
theorem claim_c1 (nodes : List Node) (edges : List Edge)
    (hnodup : (nodeIds nodes).Nodup)
    (hends : ∀ e ∈ edges, e.source ∈ nodeIds nodes ∧ e.target ∈ nodeIds nodes) :
    (¬ HasCycle edges → check_is_dag nodes edges = some true) ∧
    (HasCycle edges → check_is_dag nodes edges = some false) := by
  obtain ⟨b, hb, hiff⟩ :=
    check_is_dag_characterization nodes edges fun e he => (hends e he).1
  constructor
  · intro hnc
    rw [hb, hiff.mpr hnc]
  · intro hc
    cases b
    · exact hb
    · exact absurd hc (hiff.mp rfl)

theorem claim_c1_witness :
    (nodeIds [mkN "a", mkN "b"]).Nodup ∧
    (∀ e ∈ [mkE "e1" "a" "b"],
      e.source ∈ nodeIds [mkN "a", mkN "b"] ∧ e.target ∈ nodeIds [mkN "a", mkN "b"]) ∧
    ((¬ HasCycle [mkE "e1" "a" "b"] →
        check_is_dag [mkN "a", mkN "b"] [mkE "e1" "a" "b"] = some true) ∧
      (HasCycle [mkE "e1" "a" "b"] →
        check_is_dag [mkN "a", mkN "b"] [mkE "e1" "a" "b"] = some false)) :=
  ⟨by decide, by decide, claim_c1 _ _ (by decide) (by decide)⟩

/-- C2 counterexample: an edge whose source id `"a"` is absent from the
node list makes `check_is_dag` raise a `KeyError` (modelled `none`), so it
does not return a boolean. -/
theorem claim_c2_counterexample :
    "a" ∉ nodeIds [mkN "b"] ∧
    check_is_dag [mkN "b"] [mkE "e1" "a" "b"] = none :=
  ⟨by decide, rfl⟩

/-- C2 amended: whenever some edge's source id is absent from the node
list, `check_is_dag` raises a `KeyError` at the adjacency-build step
(modelled `none`): the dangling source is never tolerated. -/
theorem claim_c2_amended (nodes : List Node) (edges : List Edge)
    (hbad : ∃ e ∈ edges, e.source ∉ nodeIds nodes) :
    check_is_dag nodes edges = none := by
  obtain ⟨e, he, hs⟩ := hbad
  have hb : ¬ (buildOk nodes edges = true) := fun h =>
    hs ((buildOk_iff nodes edges).mp h e he)
  unfold check_is_dag
  rw [if_neg hb]

theorem claim_c2_witness :
    (∃ e ∈ [mkE "e1" "a" "b"], e.source ∉ nodeIds [mkN "b"]) ∧
    check_is_dag [mkN "b"] [mkE "e1" "a" "b"] = none :=
  ⟨by decide, claim_c2_amended _ _ (by decide)⟩

/-- C3: whenever `parse_pipeline` returns a record, its `num_nodes` is the
node count, its `num_edges` is the edge count, and its `is_dag` is the
value returned by `check_is_dag` on the same nodes and edges. -/
theorem claim_c3 (p : Pipeline) (r : ParseResult)
    (h : parse_pipeline p = some r) :
    r.num_nodes = p.nodes.length ∧ r.num_edges = p.edges.length ∧
    check_is_dag p.nodes p.edges = some r.is_dag := by
  unfold parse_pipeline at h
  split at h
  · exact absurd h (by simp)
  · next b heq =>
    cases h
    exact ⟨rfl, rfl, heq⟩

theorem claim_c3_witness :
    parse_pipeline ⟨[mkN "a"], []⟩ = some ⟨1, 0, true⟩ ∧
    ((⟨1, 0, true⟩ : ParseResult).num_nodes = [mkN "a"].length ∧
      (⟨1, 0, true⟩ : ParseResult).num_edges = ([] : List Edge).length ∧
      check_is_dag [mkN "a"] [] = some (⟨1, 0, true⟩ : ParseResult).is_dag) :=
  ⟨rfl, claim_c3 ⟨[mkN "a"], []⟩ ⟨1, 0, true⟩ rfl⟩

/-- C4: the empty input yields `is_dag = true`, `num_nodes = 0`,
`num_edges = 0`. -/
theorem claim_c4 :
    check_is_dag [] [] = some true ∧
    parse_pipeline ⟨[], []⟩ = some ⟨0, 0, true⟩ :=
  ⟨rfl, rfl⟩

/-- C5: an input whose node-id list contains duplicates, with all edge
endpoints among the node ids, still terminates without an error and
returns a boolean. -/
theorem claim_c5 (nodes : List Node) (edges : List Edge)
    (hdup : ¬ (nodeIds nodes).Nodup)
    (hends : ∀ e ∈ edges, e.source ∈ nodeIds nodes ∧ e.target ∈ nodeIds nodes) :
    ∃ b, check_is_dag nodes edges = some b := by
  obtain ⟨b, hb, _⟩ :=
    check_is_dag_characterization nodes edges fun e he => (hends e he).1
  exact ⟨b, hb⟩

theorem claim_c5_witness :
    ¬ (nodeIds [mkN "a", mkN "a"]).Nodup ∧
    (∀ e ∈ [mkE "e1" "a" "a"],
      e.source ∈ nodeIds [mkN "a", mkN "a"] ∧ e.target ∈ nodeIds [mkN "a", mkN "a"]) ∧
    (∃ b, check_is_dag [mkN "a", mkN "a"] [mkE "e1" "a" "a"] = some b) :=
  ⟨by decide, by decide, claim_c5 _ _ (by decide) (by decide)⟩

/-- C6 counterexample: the claim quantifies over every input containing a
self-loop with endpoints among the node ids, but does not constrain the
other edges; an additional edge with a dangling source makes the
adjacency build raise a `KeyError` (modelled `none`), so `check_is_dag`
does not return `false` on this input. -/
theorem claim_c6_counterexample :
    (∃ e ∈ [mkE "e1" "x" "y", mkE "e2" "a" "a"], e.source = e.target ∧
      e.source ∈ nodeIds [mkN "a"] ∧ e.target ∈ nodeIds [mkN "a"]) ∧
    check_is_dag [mkN "a"] [mkE "e1" "x" "y", mkE "e2" "a" "a"] = none ∧
    check_is_dag [mkN "a"] [mkE "e1" "x" "y", mkE "e2" "a" "a"] ≠ some false :=
  ⟨by decide, rfl, by decide⟩

/-- C6 amended: on every input all of whose edge sources are among the
node ids, the presence of a self-loop makes `check_is_dag` return
`false`. -/
theorem claim_c6_amended (nodes : List Node) (edges : List Edge)
    (hsrc : ∀ e ∈ edges, e.source ∈ nodeIds nodes)
    (hself : ∃ e ∈ edges, e.source = e.target) :
    check_is_dag nodes edges = some false := by
  obtain ⟨b, hb, hiff⟩ := check_is_dag_characterization nodes edges hsrc
  obtain ⟨e, he, hst⟩ := hself
  have hcyc : HasCycle edges :=
    ⟨e.target, Relation.TransGen.single ⟨e, he, hst, rfl⟩⟩
  cases b
  · exact hb
  · exact absurd hcyc (hiff.mp rfl)

theorem claim_c6_witness :
    (∀ e ∈ [mkE "e1" "a" "a"], e.source ∈ nodeIds [mkN "a"]) ∧
    (∃ e ∈ [mkE "e1" "a" "a"], e.source = e.target) ∧
    check_is_dag [mkN "a"] [mkE "e1" "a" "a"] = some false :=
  ⟨by decide, by decide, claim_c6_amended _ _ (by decide) (by decide)⟩

/-- C7: permuting the node list and the edge list changes none of the
outputs: `num_nodes`, `num_edges` and `is_dag` (and exception behaviour)
are identical, so the whole `parse_pipeline` result is unchanged. -/
theorem claim_c7 (nodes nodes' : List Node) (edges edges' : List Edge)
    (hn : nodes.Perm nodes') (he : edges.Perm edges') :
    parse_pipeline ⟨nodes, edges⟩ = parse_pipeline ⟨nodes', edges'⟩ := by
  have hcheck := check_is_dag_perm nodes nodes' edges edges' hn he
  unfold parse_pipeline
  simp only [hcheck]
  cases check_is_dag nodes' edges'
  · rfl
  · simp [hn.length_eq, he.length_eq]

theorem claim_c7_witness :
    ([mkN "a", mkN "b"].Perm [mkN "b", mkN "a"]) ∧
    ([mkE "e1" "a" "b", mkE "e2" "b" "a"].Perm [mkE "e2" "b" "a", mkE "e1" "a" "b"]) ∧
    parse_pipeline ⟨[mkN "a", mkN "b"], [mkE "e1" "a" "b", mkE "e2" "b" "a"]⟩
      = parse_pipeline ⟨[mkN "b", mkN "a"], [mkE "e2" "b" "a", mkE "e1" "a" "b"]⟩ :=
  ⟨by decide, by decide, claim_c7 _ _ _ _ (by decide) (by decide)⟩

/-- C8: `check_is_dag` is deterministic and stateless — two sequential
invocations on the same input (each starting, as in the source, from
freshly created `visited` / `rec_stack` sets) return the same result,
which is the function of the input alone. -/
theorem claim_c8 (nodes : List Node) (edges : List Edge) :
    (runDetectorTwice nodes edges).1 = (runDetectorTwice nodes edges).2 ∧
    (runDetectorTwice nodes edges).1 = check_is_dag nodes edges :=
  ⟨rfl, rfl⟩

/-- C9: the DFS preserves the invariant that `rec_stack` is a subset of
`visited`; consequently, on every state the DFS can reach, membership in
`rec_stack` is equivalent to the spec's condition "visited AND on the
recursion stack". -/
theorem claim_c9 (adj : String → List String) (fuel : Nat) (arg : DfsArg)
    (st : DfsState) (res : Bool) (st' : DfsState)
    (hsub : ∀ x ∈ st.recStack, x ∈ st.visited)
    (hrun : dfsRun adj fuel arg st = some (res, st')) :
    (∀ m, m ∈ st.recStack ↔ m ∈ st.visited ∧ m ∈ st.recStack) ∧
    (∀ x ∈ st'.recStack, x ∈ st'.visited) ∧
    (∀ m, m ∈ st'.recStack ↔ m ∈ st'.visited ∧ m ∈ st'.recStack) := by
  have h1 := dfsRun_recStack_sub adj fuel arg st res st' hrun hsub
  refine ⟨?_, h1, ?_⟩
  · exact fun m => ⟨fun hm => ⟨hsub m hm, hm⟩, fun hm => hm.2⟩
  · exact fun m => ⟨fun hm => ⟨h1 m hm, hm⟩, fun hm => hm.2⟩

theorem claim_c9_witness :
    (∀ x ∈ (⟨[], []⟩ : DfsState).recStack, x ∈ (⟨[], []⟩ : DfsState).visited) ∧
    dfsRun (fun _ => []) 2 (Sum.inl "a") ⟨[], []⟩ = some (false, ⟨["a"], []⟩) ∧
    ((∀ m, m ∈ (⟨[], []⟩ : DfsState).recStack ↔
        m ∈ (⟨[], []⟩ : DfsState).visited ∧ m ∈ (⟨[], []⟩ : DfsState).recStack) ∧
      (∀ x ∈ (⟨["a"], []⟩ : DfsState).recStack, x ∈ (⟨["a"], []⟩ : DfsState).visited) ∧
      (∀ m, m ∈ (⟨["a"], []⟩ : DfsState).recStack ↔
        m ∈ (⟨["a"], []⟩ : DfsState).visited ∧ m ∈ (⟨["a"], []⟩ : DfsState).recStack)) :=
  ⟨by simp, rfl, claim_c9 (fun _ => []) 2 (Sum.inl "a") ⟨[], []⟩ false ⟨["a"], []⟩
    (by simp) rfl⟩

/-- C10: on every input whose edge sources are all among the node ids,
`check_is_dag` terminates normally with a result: the fuel
`dagFuel nodes edges`, bounded by the number of supplied nodes and
edges, is never exhausted. -/
theorem claim_c10 (nodes : List Node) (edges : List Edge)
    (hsrc : ∀ e ∈ edges, e.source ∈ nodeIds nodes) :
    (check_is_dag nodes edges).isSome = true :=
  check_is_dag_isSome nodes edges hsrc

theorem claim_c10_witness :
    (∀ e ∈ [mkE "e1" "a" "b", mkE "e2" "b" "c"],
      e.source ∈ nodeIds [mkN "a", mkN "b", mkN "c"]) ∧
    (check_is_dag [mkN "a", mkN "b", mkN "c"]
      [mkE "e1" "a" "b", mkE "e2" "b" "c"]).isSome = true :=
  ⟨by decide, claim_c10 _ _ (by decide)⟩
